import Mathlib

/-!
Verification of the Elevare hybrid co-founder matching engine
(`src/services/matching_service.py`, models in `src/models/user_models.py`).

Embedding conventions:
* float values are idealised as exact rationals (inputs) and reals (derived
  scores); `numpy` vectors are `List ℚ`.
* the external SentenceTransformer model is an explicit parameter
  `encode : String → List ℚ` (the spec's Text-Embedding Provider, an external
  collaborator loaded once per process and never mutated);
* the mutable per-engine embedding cache (`self._embedding_cache`,
  a `Dict[int, np.ndarray]`) is threaded explicitly as an association list;
* Python `round(x, 4)` is modelled with Mathlib's `round` (round-half-up
  versus Python's round-half-even: no statement below depends on exact
  half-way cases);
* SQLAlchemy queries without `ORDER BY` are modelled by taking the database
  as an explicit `List User` in iteration order.
-/

namespace Elevare

/-- A row of the `users` table (`models/user_models.py`).  The `skills`
relationship is kept as the list of skill names (the engine only ever reads
`s.name`).  The SQLAlchemy model has *no* `bio` and no `past_projects`
column, so the corresponding `hasattr` guards in `_build_user_context` are
always false for database users. -/
structure User where
  id : Int
  name : String
  email : String
  location : Option String
  interest : Option String
  personality : Option String
  commitment_level : Option ℚ
  skills : List String

/-- `ProjectRequirements` pydantic model. -/
structure ProjectRequirements where
  description : String
  required_skills : List String
  preferred_interests : List String
  location_preference : Option String

/-- Python `str.lower()` (code-point-wise lower-casing; the skill tokens and
context strings of this engine are ASCII). -/
def pyLower (s : String) : String := ⟨s.data.map Char.toLower⟩

/-- Python `str.strip()`: remove leading and trailing whitespace. -/
def pyStrip (s : String) : String :=
  ⟨((s.data.dropWhile Char.isWhitespace).reverse.dropWhile Char.isWhitespace).reverse⟩

/-- Python truthiness of an `Optional[str]` field (`None` and `""` are falsy). -/
def strTruthy : Option String → Bool
  | none => false
  | some s => !(s == "")

/-- `_build_user_context` (SQLAlchemy branch).  `hasattr(user, 'bio')` and
`hasattr(user, 'past_projects')` are false on the `User` model, so only the
`interest` and `skills` parts are ever appended. -/
def build_user_context (u : User) : String :=
  let parts : List String :=
    (if strTruthy u.interest then ["Interested in " ++ u.interest.getD ""] else []) ++
    (if u.skills ≠ [] then ["Skills: " ++ String.intercalate ", " u.skills] else [])
  String.intercalate " " parts

/-- `generate_embedding`: empty or whitespace-only text maps to the
384-dimensional zero vector, otherwise the (stripped) text is encoded by the
sentence-transformer model. -/
def generate_embedding (encode : String → List ℚ) (text : String) : List ℚ :=
  if pyStrip text = "" then List.replicate 384 0
  else encode (pyStrip text)

/-- The engine's embedding cache `self._embedding_cache : Dict[int, np.ndarray]`,
keyed by user id only. -/
abbrev EmbeddingCache := List (Int × List ℚ)

/-- Dictionary lookup `user.id in self._embedding_cache`. -/
def cacheLookup (c : EmbeddingCache) (uid : Int) : Option (List ℚ) :=
  (c.find? (fun p => p.1 == uid)).map Prod.snd

/-- `_get_user_embedding`: return the cached vector for `user.id` if present
(without any comparison of the stored context), otherwise build the context,
embed it, store the vector under `user.id` and return it. -/
def get_user_embedding (encode : String → List ℚ) (c : EmbeddingCache) (u : User) :
    List ℚ × EmbeddingCache :=
  match cacheLookup c u.id with
  | some v => (v, c)
  | none =>
      let context := build_user_context u
      let v := generate_embedding encode context
      (v, (u.id, v) :: c)

/-- Euclidean inner product of two vectors (`np.dot` as used by sklearn's
`cosine_similarity`); trailing entries of the longer vector are ignored. -/
def dot (a b : List ℚ) : ℚ := (List.zipWith (· * ·) a b).sum

/-- `np.allclose(v, 0)` with numpy's default tolerances
(`atol = 1e-8`, and `rtol` contributes nothing against zero). -/
def allCloseZero (v : List ℚ) : Bool := v.all (fun x => |x| ≤ 1 / 100000000)

/-- sklearn `cosine_similarity(a, b)[0][0]`: the inner product divided by the
product of the Euclidean norms. -/
noncomputable def cosine_sim (a b : List ℚ) : ℝ :=
  (dot a b : ℝ) / (Real.sqrt ((dot a a : ℚ) : ℝ) * Real.sqrt ((dot b b : ℚ) : ℝ))

/-- `calculate_semantic_similarity`: vectors that `np.allclose` to zero give
`0.0`; otherwise cosine similarity is normalised from `[-1, 1]` to `[0, 1]`
via `(sim + 1) / 2` and clamped with `max(0.0, min(1.0, ·))`. -/
noncomputable def calculate_semantic_similarity (a b : List ℚ) : ℝ :=
  if allCloseZero a || allCloseZero b then 0
  else max 0 (min 1 ((cosine_sim a b + 1) / 2))

/-- The set comprehension `{s.lower().strip() for s in skills if s}`. -/
def normalize_skill_set (s : Finset String) : Finset String :=
  (s.filter (fun x => x ≠ "")).image (fun x => pyStrip (pyLower x))

/-- `calculate_jaccard_similarity`: `|A ∩ B| / |A ∪ B|` over the normalised
sets, with the three guard clauses of the source returning `0.0`. -/
def calculate_jaccard_similarity (skills_a skills_b : Finset String) : ℚ :=
  if skills_a = ∅ ∧ skills_b = ∅ then 0
  else if normalize_skill_set skills_a = ∅ ∧ normalize_skill_set skills_b = ∅ then 0
  else if (normalize_skill_set skills_a ∪ normalize_skill_set skills_b).card = 0 then 0
  else ((normalize_skill_set skills_a ∩ normalize_skill_set skills_b).card : ℚ) /
    ((normalize_skill_set skills_a ∪ normalize_skill_set skills_b).card : ℚ)

/-- `CofounderMatchingEngine.SEMANTIC_WEIGHT`. -/
def SEMANTIC_WEIGHT : ℝ := 0.7

/-- `CofounderMatchingEngine.SKILL_WEIGHT`. -/
def SKILL_WEIGHT : ℝ := 0.3

/-- Python `round(x, 4)`. -/
noncomputable def pyRound4 (x : ℝ) : ℝ := ((round (x * 10000) : ℤ) : ℝ) / 10000

/-- `calculate_hybrid_score`: weighted combination of the two similarity
signals, each value rounded to four decimal places and all three returned. -/
noncomputable def calculate_hybrid_score (user_embedding : List ℚ) (user_skills : Finset String)
    (target_embedding : List ℚ) (target_skills : Finset String) : ℝ × ℝ × ℝ :=
  let semantic_score := calculate_semantic_similarity user_embedding target_embedding
  let skill_score : ℝ := ((calculate_jaccard_similarity user_skills target_skills : ℚ) : ℝ)
  let total_score := SEMANTIC_WEIGHT * semantic_score + SKILL_WEIGHT * skill_score
  (pyRound4 total_score, pyRound4 semantic_score, pyRound4 skill_score)

/-- The `MatchScore` pydantic model (scores are reals in this embedding). -/
structure MatchScore where
  user_id : Int
  user_name : String
  total_score : ℝ
  semantic_score : ℝ
  skill_score : ℝ
  matching_skills : List String
  complementary_skills : List String
  explanation : String

/-- `_generate_explanation`.  The `skill` argument is accepted and unused,
exactly as in the source. -/
noncomputable def generate_explanation (name : String) (total semantic _skill : ℝ)
    (matching complementary : List String) : String :=
  let overall :=
    if total ≥ 0.8 then "🌟 " ++ name ++ " is an excellent match!"
    else if total ≥ 0.6 then "✅ " ++ name ++ " is a strong match."
    else if total ≥ 0.4 then "👍 " ++ name ++ " could be a good fit."
    else "📊 " ++ name ++ " has some relevant qualities."
  let semanticPart :=
    if semantic ≥ 0.7 then ["Your visions are highly aligned."]
    else if semantic ≥ 0.5 then ["You share similar interests and goals."]
    else []
  let matchingPart :=
    if matching ≠ [] then ["Shared skills: " ++ String.intercalate ", " (matching.take 3)]
    else []
  let complementaryPart :=
    if complementary ≠ [] then ["Brings: " ++ String.intercalate ", " (complementary.take 3)]
    else []
  String.intercalate " " ([overall] ++ semanticPart ++ matchingPart ++ complementaryPart)

/-- The set comprehension `{s.name.lower() for s in user.skills}` (note: no
strip and no empty-string filter here, unlike the Jaccard normalisation). -/
def lowered_skill_set (skills : List String) : Finset String :=
  (skills.map pyLower).toFinset

/-- `db.get(User, uid)`: primary-key lookup, modelled as first match in
database order. -/
def dbGet (db : List User) (uid : Int) : Option User :=
  db.find? (fun u => u.id == uid)

/-- The per-candidate loop shared by `_find_matches_sync` and
`_find_matches_for_project_sync`: embed the candidate (through the cache),
score it against the searcher side, drop it when `total < min_score`,
otherwise build a `MatchScore`.  Python's `list(set)` has no specified
order; the skill lists are determinised lexicographically (no claim below
depends on their order). -/
noncomputable def score_candidates (encode : String → List ℚ) (my_embedding : List ℚ)
    (my_skills : Finset String) (min_score : ℝ) :
    EmbeddingCache → List User → List MatchScore × EmbeddingCache
  | c, [] => ([], c)
  | c, candidate :: rest =>
      let step := get_user_embedding encode c candidate
      let candidate_skills := lowered_skill_set candidate.skills
      let scores := calculate_hybrid_score my_embedding my_skills step.1 candidate_skills
      let restRes := score_candidates encode my_embedding my_skills min_score step.2 rest
      if scores.1 < min_score then restRes
      else
        let matching := (my_skills ∩ candidate_skills).sort (· ≤ ·)
        let complementary := (candidate_skills \ my_skills).sort (· ≤ ·)
        ({ user_id := candidate.id
           user_name := candidate.name
           total_score := scores.1
           semantic_score := scores.2.1
           skill_score := scores.2.2
           matching_skills := matching
           complementary_skills := complementary
           explanation := generate_explanation candidate.name scores.1 scores.2.1 scores.2.2
             matching complementary } :: restRes.1, restRes.2)

/-- `matches.sort(key=lambda m: m.total_score, reverse=True)` sorts by this
relation; Python's sort is stable, which `List.insertionSort` matches. -/
def byTotalDesc (m n : MatchScore) : Prop := n.total_score ≤ m.total_score

noncomputable instance : DecidableRel byTotalDesc :=
  fun m n => inferInstanceAs (Decidable (n.total_score ≤ m.total_score))

instance : IsTotal MatchScore byTotalDesc :=
  ⟨fun a b => le_total b.total_score a.total_score⟩

instance : IsTrans MatchScore byTotalDesc :=
  ⟨fun _ _ _ hab hbc => le_trans hbc hab⟩

/-- `_find_matches_sync`: fetch the searcher (returning `[]` when the id does
not resolve), embed it, score every other user, sort by total score
descending (stable) and truncate to `limit`. -/
noncomputable def find_matches_sync (encode : String → List ℚ) (c : EmbeddingCache)
    (db : List User) (user_id : Int) (limit : Nat) (min_score : ℝ) :
    List MatchScore × EmbeddingCache :=
  match dbGet db user_id with
  | none => ([], c)
  | some me =>
      let meStep := get_user_embedding encode c me
      let my_skills := lowered_skill_set me.skills
      let candidates := db.filter (fun u => u.id ≠ user_id)
      let scored := score_candidates encode meStep.1 my_skills min_score meStep.2 candidates
      ((scored.1.insertionSort byTotalDesc).take limit, scored.2)

/-- `_find_matches_for_project_sync`: build the synthetic searcher context
and skill set from the project requirements and run the same loop over the
(possibly exclusion-filtered) pool. -/
noncomputable def find_matches_for_project_sync (encode : String → List ℚ) (c : EmbeddingCache)
    (db : List User) (project : ProjectRequirements) (limit : Nat) (min_score : ℝ)
    (exclude_user_ids : List Int) : List MatchScore × EmbeddingCache :=
  let project_context :=
    if project.preferred_interests ≠ [] then
      project.description ++ " Looking for: " ++ String.intercalate ", " project.preferred_interests
    else project.description
  let project_embedding := generate_embedding encode project_context
  let project_skills := (project.required_skills.map pyLower).toFinset
  let candidates :=
    if exclude_user_ids ≠ [] then db.filter (fun u => !exclude_user_ids.contains u.id)
    else db
  let scored := score_candidates encode project_embedding project_skills min_score c candidates
  ((scored.1.insertionSort byTotalDesc).take limit, scored.2)

/-- `CofounderMatchingEngine.get_matches` (legacy path): re-fetch each matched
user by id and pair it with `total_score * 100`; users that fail to resolve
are silently dropped. -/
noncomputable def get_matches (encode : String → List ℚ) (c : EmbeddingCache)
    (db : List User) (user_id : Int) (limit : Nat) : List (User × ℝ) × EmbeddingCache :=
  let found := find_matches_sync encode c db user_id limit 0.1
  (found.1.filterMap (fun m => (dbGet db m.user_id).map (fun u => (u, m.total_score * 100))),
    found.2)

/-- `MatchingService.get_matches`: pure delegation to the engine. -/
noncomputable def matching_service_get_matches (encode : String → List ℚ) (c : EmbeddingCache)
    (db : List User) (user_id : Int) (limit : Nat) : List (User × ℝ) × EmbeddingCache :=
  get_matches encode c db user_id limit

/-- Spec-side: the clamp to `[0, 1]` demanded by §3/§4.4 of the spec. -/
noncomputable def clamp01 (x : ℝ) : ℝ := max 0 (min 1 x)

/-- Spec-side (§4.3 verbatim): `0.0` exactly when either input is the zero
vector, otherwise `(cos + 1) / 2` with no tolerance and no clamp.  Used only
to compare the spec's wording with the code. -/
noncomputable def spec_semantic_similarity (a b : List ℚ) : ℝ :=
  if a.all (fun x => x == 0) || b.all (fun x => x == 0) then 0
  else (cosine_sim a b + 1) / 2

/-! ### Basic facts about the similarity calculators -/

theorem dot_comm (a b : List ℚ) : dot a b = dot b a := by
  unfold dot
  rw [List.zipWith_comm_of_comm (· * ·) mul_comm]

theorem dot_cons (x y : ℚ) (a b : List ℚ) : dot (x :: a) (y :: b) = x * y + dot a b := by
  simp [dot]

theorem dot_self_nonneg (a : List ℚ) : 0 ≤ dot a a := by
  induction a with
  | nil => simp [dot]
  | cons x t ih =>
      have hx : 0 ≤ x * x := mul_self_nonneg x
      simp only [dot, List.zipWith_cons_cons, List.sum_cons] at *
      linarith

theorem sq_le_dot_self {x : ℚ} {a : List ℚ} (hx : x ∈ a) : x ^ 2 ≤ dot a a := by
  induction a with
  | nil => cases hx
  | cons y t ih =>
      have ht : 0 ≤ dot t t := dot_self_nonneg t
      simp only [dot, List.zipWith_cons_cons, List.sum_cons] at *
      rcases List.mem_cons.mp hx with h | h
      · subst h; nlinarith
      · have := ih h; nlinarith

/-- Cauchy–Schwarz for the list inner product, by induction with a case
split on degeneracy of the tail. -/
theorem dot_sq_le (a : List ℚ) : ∀ b : List ℚ, (dot a b) ^ 2 ≤ dot a a * dot b b := by
  induction a with
  | nil =>
      intro b
      simp [dot]
  | cons x at' ih =>
      intro b
      cases b with
      | nil =>
          simp [dot]
      | cons y bt =>
          have hA : 0 ≤ dot at' at' := dot_self_nonneg at'
          have hB : 0 ≤ dot bt bt := dot_self_nonneg bt
          have hIH : (dot at' bt) ^ 2 ≤ dot at' at' * dot bt bt := ih bt
          rw [dot_cons, dot_cons, dot_cons]
          rcases eq_or_lt_of_le hA with h0 | hApos
      -- degenerate tail: the IH forces the mixed tail product to vanish
          · have hC2 : (dot at' bt) ^ 2 = 0 :=
              le_antisymm (by nlinarith) (sq_nonneg _)
            have hC : dot at' bt = 0 := by
              exact sq_eq_zero_iff.mp hC2
            rw [hC, ← h0]
            nlinarith [mul_nonneg (mul_self_nonneg x) hB]
          · nlinarith [sq_nonneg (x * dot at' bt - dot at' at' * y),
              mul_nonneg (sq_nonneg x) (sub_nonneg.mpr hIH),
              mul_nonneg hApos.le (sub_nonneg.mpr hIH)]

theorem allCloseZero_false_dot_pos {a : List ℚ} (h : allCloseZero a = false) :
    0 < dot a a := by
  unfold allCloseZero at h
  rcases List.all_eq_false.mp h with ⟨x, hx, hxb⟩
  have hxq : ¬ |x| ≤ 1 / 100000000 := by simpa using hxb
  have hx0 : x ≠ 0 := by
    intro h0
    exact hxq (by simp [h0])
  have hsq : 0 < x ^ 2 := by positivity
  exact lt_of_lt_of_le hsq (sq_le_dot_self hx)

/-- For vectors that do not trip the `allclose` guard, the cosine value lies
in `[-1, 1]` (Cauchy–Schwarz), so the final clamp of
`calculate_semantic_similarity` never fires. -/
theorem cosine_sim_abs_le_one {a b : List ℚ} (ha : allCloseZero a = false)
    (hb : allCloseZero b = false) : |cosine_sim a b| ≤ 1 := by
  have hA : 0 < dot a a := allCloseZero_false_dot_pos ha
  have hB : 0 < dot b b := allCloseZero_false_dot_pos hb
  have hAr : (0:ℝ) < ((dot a a : ℚ) : ℝ) := by exact_mod_cast hA
  have hBr : (0:ℝ) < ((dot b b : ℚ) : ℝ) := by exact_mod_cast hB
  have hden : 0 < Real.sqrt ((dot a a : ℚ) : ℝ) * Real.sqrt ((dot b b : ℚ) : ℝ) :=
    mul_pos (Real.sqrt_pos.mpr hAr) (Real.sqrt_pos.mpr hBr)
  have hcs : ((dot a b : ℚ) : ℝ) ^ 2 ≤ ((dot a a : ℚ) : ℝ) * ((dot b b : ℚ) : ℝ) := by
    exact_mod_cast dot_sq_le a b
  have hnum : |((dot a b : ℚ) : ℝ)| ≤
      Real.sqrt ((dot a a : ℚ) : ℝ) * Real.sqrt ((dot b b : ℚ) : ℝ) := by
    rw [← Real.sqrt_sq_eq_abs, ← Real.sqrt_mul hAr.le]
    exact Real.sqrt_le_sqrt hcs
  rw [cosine_sim, abs_div, abs_of_pos hden]
  exact div_le_one_of_le₀ hnum hden.le

theorem calculate_semantic_similarity_nonneg (a b : List ℚ) :
    0 ≤ calculate_semantic_similarity a b := by
  unfold calculate_semantic_similarity
  split
  · exact le_refl 0
  · exact le_max_left 0 _

theorem calculate_semantic_similarity_le_one (a b : List ℚ) :
    calculate_semantic_similarity a b ≤ 1 := by
  unfold calculate_semantic_similarity
  split
  · exact zero_le_one
  · exact max_le (by norm_num) (min_le_left 1 _)

theorem calculate_jaccard_similarity_nonneg (A B : Finset String) :
    0 ≤ calculate_jaccard_similarity A B := by
  unfold calculate_jaccard_similarity
  split
  · exact le_refl 0
  · split
    · exact le_refl 0
    · split
      · exact le_refl 0
      · positivity

theorem calculate_jaccard_similarity_le_one (A B : Finset String) :
    calculate_jaccard_similarity A B ≤ 1 := by
  unfold calculate_jaccard_similarity
  split
  · exact zero_le_one
  · split
    · exact zero_le_one
    · split
      · exact zero_le_one
      · rename_i hcard
        have hpos : 0 < ((normalize_skill_set A ∪ normalize_skill_set B).card : ℚ) := by
          have : (normalize_skill_set A ∪ normalize_skill_set B).card ≠ 0 := hcard
          exact_mod_cast Nat.pos_of_ne_zero this
        rw [div_le_one hpos]
        exact_mod_cast Finset.card_le_card
          (Finset.inter_subset_union (s := normalize_skill_set A) (t := normalize_skill_set B))

theorem round_le_round_of_le {x y : ℝ} (h : x ≤ y) : round x ≤ round y := by
  rw [round_eq, round_eq]
  exact Int.floor_mono (by linarith)

theorem pyRound4_nonneg {x : ℝ} (hx : 0 ≤ x) : 0 ≤ pyRound4 x := by
  unfold pyRound4
  have h : round ((0:ℝ)) ≤ round (x * 10000) := round_le_round_of_le (by nlinarith)
  rw [round_zero] at h
  have : (0:ℝ) ≤ ((round (x * 10000) : ℤ) : ℝ) := by exact_mod_cast h
  positivity

theorem pyRound4_le_one {x : ℝ} (hx : x ≤ 1) : pyRound4 x ≤ 1 := by
  unfold pyRound4
  have h10 : ((10000:ℝ)) = ((10000:ℤ) : ℝ) := by norm_num
  have h : round (x * 10000) ≤ round ((10000:ℝ)) := round_le_round_of_le (by nlinarith)
  rw [h10, round_intCast] at h
  rw [div_le_one (by norm_num)]
  calc ((round (x * 10000) : ℤ) : ℝ) ≤ ((10000:ℤ) : ℝ) := by exact_mod_cast h
    _ = 10000 := by norm_num

theorem cosine_sim_comm (a b : List ℚ) : cosine_sim a b = cosine_sim b a := by
  unfold cosine_sim
  rw [dot_comm a b, mul_comm]

theorem calculate_semantic_similarity_comm (a b : List ℚ) :
    calculate_semantic_similarity a b = calculate_semantic_similarity b a := by
  unfold calculate_semantic_similarity
  rw [Bool.or_comm, cosine_sim_comm]

theorem calculate_jaccard_similarity_comm (A B : Finset String) :
    calculate_jaccard_similarity A B = calculate_jaccard_similarity B A := by
  unfold calculate_jaccard_similarity
  rw [Finset.union_comm (normalize_skill_set A), Finset.inter_comm (normalize_skill_set A)]
  split_ifs <;> first | rfl | tauto

/-! ### Claim theorems: the Hybrid Scorer -/

/-- C1: for every pair of inputs (searcher embedding, searcher skills,
candidate embedding, candidate skills), the triple
`(total_score, semantic_score, skill_score)` returned by
`calculate_hybrid_score` lies componentwise in the closed interval
`[0.0, 1.0]`.  (In this exact-arithmetic embedding every division is guarded
or total, so no NaN value exists to return.) -/
theorem C1_hybrid_score_bounds (ue te : List ℚ) (us ts : Finset String) :
    (0 ≤ (calculate_hybrid_score ue us te ts).1 ∧ (calculate_hybrid_score ue us te ts).1 ≤ 1) ∧
    (0 ≤ (calculate_hybrid_score ue us te ts).2.1 ∧
      (calculate_hybrid_score ue us te ts).2.1 ≤ 1) ∧
    (0 ≤ (calculate_hybrid_score ue us te ts).2.2 ∧
      (calculate_hybrid_score ue us te ts).2.2 ≤ 1) := by
  have hsem0 := calculate_semantic_similarity_nonneg ue te
  have hsem1 := calculate_semantic_similarity_le_one ue te
  have hsk0 : (0:ℝ) ≤ ((calculate_jaccard_similarity us ts : ℚ) : ℝ) := by
    exact_mod_cast calculate_jaccard_similarity_nonneg us ts
  have hsk1 : ((calculate_jaccard_similarity us ts : ℚ) : ℝ) ≤ 1 := by
    exact_mod_cast calculate_jaccard_similarity_le_one us ts
  simp only [calculate_hybrid_score, SEMANTIC_WEIGHT, SKILL_WEIGHT]
  exact ⟨⟨pyRound4_nonneg (by nlinarith), pyRound4_le_one (by nlinarith)⟩,
    ⟨pyRound4_nonneg hsem0, pyRound4_le_one hsem1⟩,
    pyRound4_nonneg hsk0, pyRound4_le_one hsk1⟩

/-- C5: the Hybrid Scorer returns
`total = 0.7 * semantic + 0.3 * skill`, which agrees with the spec's
"clamp to [0, 1] then round to 4 decimal places" (the clamp is the identity
here because both components are already in `[0, 1]`), and it returns all
three values `(total, semantic, skill)`, never only the total. -/
theorem C5_hybrid_score_formula (ue te : List ℚ) (us ts : Finset String) :
    calculate_hybrid_score ue us te ts =
      (pyRound4 (clamp01 ((0.7:ℝ) * calculate_semantic_similarity ue te
          + (0.3:ℝ) * ((calculate_jaccard_similarity us ts : ℚ) : ℝ))),
        pyRound4 (calculate_semantic_similarity ue te),
        pyRound4 (((calculate_jaccard_similarity us ts : ℚ) : ℝ))) := by
  have hsem0 := calculate_semantic_similarity_nonneg ue te
  have hsem1 := calculate_semantic_similarity_le_one ue te
  have hsk0 : (0:ℝ) ≤ ((calculate_jaccard_similarity us ts : ℚ) : ℝ) := by
    exact_mod_cast calculate_jaccard_similarity_nonneg us ts
  have hsk1 : ((calculate_jaccard_similarity us ts : ℚ) : ℝ) ≤ 1 := by
    exact_mod_cast calculate_jaccard_similarity_le_one us ts
  have hclamp : clamp01 ((0.7:ℝ) * calculate_semantic_similarity ue te
      + (0.3:ℝ) * ((calculate_jaccard_similarity us ts : ℚ) : ℝ))
      = (0.7:ℝ) * calculate_semantic_similarity ue te
        + (0.3:ℝ) * ((calculate_jaccard_similarity us ts : ℚ) : ℝ) := by
    unfold clamp01
    rw [min_eq_right (by nlinarith), max_eq_right (by nlinarith)]
  simp only [calculate_hybrid_score, SEMANTIC_WEIGHT, SKILL_WEIGHT, hclamp]

/-- C6: the pairwise score is symmetric — feeding the Hybrid Scorer the
swapped inputs returns the identical `(total, semantic, skill)` triple. -/
theorem C6_hybrid_score_symm (ea eb : List ℚ) (sa sb : Finset String) :
    calculate_hybrid_score ea sa eb sb = calculate_hybrid_score eb sb ea sa := by
  unfold calculate_hybrid_score
  rw [calculate_semantic_similarity_comm ea eb, calculate_jaccard_similarity_comm sa sb]

/-! ### Claims about the similarity calculators -/

theorem normalize_skill_set_insert_empty (C : Finset String) :
    normalize_skill_set (insert "" C) = normalize_skill_set C := by
  unfold normalize_skill_set
  rw [Finset.filter_insert]
  simp

theorem normalize_skill_set_insert (s : String) (C : Finset String) (hs : s ≠ "") :
    normalize_skill_set (insert s C) = insert (pyStrip (pyLower s)) (normalize_skill_set C) := by
  unfold normalize_skill_set
  rw [Finset.filter_insert, if_pos hs, Finset.image_insert]

/-- When the first set is non-empty and survives normalisation, none of the
guard clauses of `calculate_jaccard_similarity` fires. -/
theorem jaccard_eq_of_ne {A : Finset String} (B : Finset String) (hA : A ≠ ∅)
    (hnA : normalize_skill_set A ≠ ∅) :
    calculate_jaccard_similarity A B =
      ((normalize_skill_set A ∩ normalize_skill_set B).card : ℚ) /
      ((normalize_skill_set A ∪ normalize_skill_set B).card : ℚ) := by
  unfold calculate_jaccard_similarity
  rw [if_neg (fun h => hA h.1), if_neg (fun h => hnA h.1),
    if_neg (fun h => hnA (Finset.union_eq_empty.mp (Finset.card_eq_zero.mp h)).1)]

/-- C7: for every searcher skill set `R`, candidate set `C` and skill
`s ∈ R` with `s ∉ C`, adding `s` to the candidate's skills can only increase
the Jaccard skill score. -/
theorem C7_jaccard_monotone (R C : Finset String) (s : String)
    (hsR : s ∈ R) (hsC : s ∉ C) :
    calculate_jaccard_similarity R C ≤ calculate_jaccard_similarity R (insert s C) := by
  have hRne : R ≠ ∅ := Finset.ne_empty_of_mem hsR
  by_cases hs : s = ""
  · subst hs
    have heq : calculate_jaccard_similarity R (insert "" C) =
        calculate_jaccard_similarity R C := by
      unfold calculate_jaccard_similarity
      rw [normalize_skill_set_insert_empty]
      split_ifs <;> first | rfl | tauto
    exact le_of_eq heq.symm
  · have hn : pyStrip (pyLower s) ∈ normalize_skill_set R := by
      unfold normalize_skill_set
      exact Finset.mem_image_of_mem _ (Finset.mem_filter.mpr ⟨hsR, hs⟩)
    have hnRne : normalize_skill_set R ≠ ∅ := Finset.ne_empty_of_mem hn
    have hunion : normalize_skill_set R ∪ normalize_skill_set (insert s C)
        = normalize_skill_set R ∪ normalize_skill_set C := by
      rw [normalize_skill_set_insert s C hs, Finset.union_insert,
        Finset.insert_eq_self.mpr (Finset.mem_union_left _ hn)]
    have hinter : normalize_skill_set R ∩ normalize_skill_set (insert s C)
        = insert (pyStrip (pyLower s)) (normalize_skill_set R ∩ normalize_skill_set C) := by
      rw [normalize_skill_set_insert s C hs]
      exact Finset.inter_insert_of_mem hn
    have hupos : 0 < ((normalize_skill_set R ∪ normalize_skill_set C).card : ℚ) := by
      have : 0 < (normalize_skill_set R ∪ normalize_skill_set C).card :=
        Finset.card_pos.mpr ⟨_, Finset.mem_union_left _ hn⟩
      exact_mod_cast this
    rw [jaccard_eq_of_ne C hRne hnRne, jaccard_eq_of_ne (insert s C) hRne hnRne,
      hunion, hinter]
    have hle : ((normalize_skill_set R ∩ normalize_skill_set C).card : ℚ) ≤
        ((insert (pyStrip (pyLower s)) (normalize_skill_set R ∩ normalize_skill_set C)).card : ℚ) := by
      exact_mod_cast Finset.card_le_card (Finset.subset_insert _ _)
    exact div_le_div_of_nonneg_right hle hupos.le

/-- Witness for C7 at a concrete input: `R = {python, ml}`, `C = {python}`,
`s = ml`. -/
theorem C7_jaccard_monotone_witness :
    calculate_jaccard_similarity {"python", "ml"} {"python"} ≤
      calculate_jaccard_similarity {"python", "ml"} (insert "ml" {"python"}) :=
  C7_jaccard_monotone {"python", "ml"} {"python"} "ml" (by decide) (by decide)

/-- C8 counterexample: `{""}` is a non-empty skill set, but
`jaccard({"" }, {""}) = 0.0`, not `1.0`: the normalisation comprehension
filters out falsy (empty) strings, both normalised sets become empty, and
the second guard returns `0.0`. -/
theorem C8_jaccard_self_counterexample :
    calculate_jaccard_similarity {""} {""} = 0 ∧
    ({""} : Finset String) ≠ ∅ ∧ (0 : ℚ) ≠ 1 := by
  refine ⟨?_, by decide, by norm_num⟩
  have hnorm : normalize_skill_set {""} = ∅ := by
    unfold normalize_skill_set
    rw [Finset.filter_singleton]
    simp
  unfold calculate_jaccard_similarity
  rw [hnorm]
  simp

/-- C8 amended: `jaccard(∅, ∅) = 0.0`, and `jaccard(S, S) = 1.0` for every
skill set `S` containing at least one non-empty token (rather than for every
non-empty `S`: a set all of whose tokens are the empty string normalises to
`∅` and scores `0.0`). -/
theorem C8_jaccard_empty_and_self :
    calculate_jaccard_similarity ∅ ∅ = 0 ∧
    ∀ S : Finset String, (∃ x ∈ S, x ≠ "") → calculate_jaccard_similarity S S = 1 := by
  constructor
  · simp [calculate_jaccard_similarity]
  · intro S hS
    obtain ⟨x, hx, hne⟩ := hS
    have hSne : S ≠ ∅ := Finset.ne_empty_of_mem hx
    have hmem : pyStrip (pyLower x) ∈ normalize_skill_set S := by
      unfold normalize_skill_set
      exact Finset.mem_image_of_mem _ (Finset.mem_filter.mpr ⟨hx, hne⟩)
    have hnne : normalize_skill_set S ≠ ∅ := Finset.ne_empty_of_mem hmem
    have hcard : ((normalize_skill_set S).card : ℚ) ≠ 0 := by
      have : (normalize_skill_set S).card ≠ 0 := by
        simp [Finset.card_eq_zero, hnne]
      exact_mod_cast this
    rw [jaccard_eq_of_ne S hSne hnne, Finset.inter_self, Finset.union_self]
    exact div_self hcard

/-- Witness for the amended C8 at concrete inputs. -/
theorem C8_jaccard_empty_and_self_witness :
    calculate_jaccard_similarity ∅ ∅ = 0 ∧
    calculate_jaccard_similarity {"python"} {"python"} = 1 :=
  ⟨C8_jaccard_empty_and_self.1,
    C8_jaccard_empty_and_self.2 {"python"} ⟨"python", by decide, by decide⟩⟩

/-- C9 counterexample: the vector `[1e-9]` is not the zero vector, yet it is
within numpy's `allclose` tolerance (`atol = 1e-8`), so the code returns
`0.0` where the spec's stated rule ("zero vector ↦ 0.0, otherwise
`(cos + 1) / 2`") yields `(1 + 1) / 2 = 1`. -/
theorem C9_semantic_similarity_counterexample :
    calculate_semantic_similarity [1/1000000000] [1/1000000000] = 0 ∧
    ([(1:ℚ)/1000000000] ≠ ([0] : List ℚ)) ∧
    spec_semantic_similarity [1/1000000000] [1/1000000000] = 1 ∧
    (0 : ℝ) ≠ 1 := by
  have hq : ((1:ℚ)/1000000000) ≠ 0 := by norm_num
  have hclose : allCloseZero [1/1000000000] = true := by
    have habs : |(1:ℚ)/1000000000| = 1/1000000000 := abs_of_pos (by norm_num)
    simp only [allCloseZero, List.all_cons, List.all_nil, Bool.and_true, decide_eq_true_eq,
      habs]
    norm_num
  have hd : dot [(1:ℚ)/1000000000] [(1:ℚ)/1000000000] = 1/1000000000000000000 := by
    simp [dot]
    norm_num
  refine ⟨?_, by simp [hq], ?_, by norm_num⟩
  · unfold calculate_semantic_similarity
    rw [hclose]
    simp
  · have hcos : cosine_sim [(1:ℚ)/1000000000] [(1:ℚ)/1000000000] = 1 := by
      unfold cosine_sim
      rw [hd]
      have hcast : (((1:ℚ)/1000000000000000000 : ℚ) : ℝ) = 1/1000000000000000000 := by
        norm_num
      rw [hcast, Real.mul_self_sqrt (by norm_num)]
      norm_num
    unfold spec_semantic_similarity
    rw [hcos]
    have hguard : (([(1:ℚ)/1000000000].all (fun x => x == 0)) ||
        ([(1:ℚ)/1000000000].all (fun x => x == 0))) = false := by
      simp [hq]
    rw [hguard]
    norm_num

/-- C9 amended: `calculate_semantic_similarity` is total; it returns `0.0`
whenever either vector is within numpy's allclose tolerance of the zero
vector (in particular for exact zero vectors), and otherwise returns exactly
`(cos + 1) / 2` — the trailing clamp is the identity because Cauchy–Schwarz
puts the cosine in `[-1, 1]` — and the result always lies in `[0, 1]`. -/
theorem C9_semantic_similarity_closed_form (a b : List ℚ) :
    calculate_semantic_similarity a b =
      (if allCloseZero a || allCloseZero b then (0:ℝ) else (cosine_sim a b + 1) / 2) ∧
    0 ≤ calculate_semantic_similarity a b ∧ calculate_semantic_similarity a b ≤ 1 := by
  refine ⟨?_, calculate_semantic_similarity_nonneg a b,
    calculate_semantic_similarity_le_one a b⟩
  unfold calculate_semantic_similarity
  by_cases h : (allCloseZero a || allCloseZero b) = true
  · rw [if_pos h, if_pos h]
  · rw [if_neg h, if_neg h]
    obtain ⟨ha, hb⟩ := Bool.or_eq_false_iff.mp (Bool.eq_false_iff.mpr h)
    have habs := abs_le.mp (cosine_sim_abs_le_one ha hb)
    rw [min_eq_right (by linarith [habs.2]), max_eq_right (by linarith [habs.1])]

/-! ### Claims about the embedding cache and the missing-searcher path -/

theorem cacheLookup_cons (i : Int) (v : List ℚ) (c : EmbeddingCache) (j : Int) :
    cacheLookup ((i, v) :: c) j = if i == j then some v else cacheLookup c j := by
  unfold cacheLookup
  cases h : (i == j) with
  | false => simp [List.find?_cons, h]
  | true => simp [List.find?_cons, h]

/-- Test double returning distinct vectors for the two contexts of the C3
scenario. -/
def c3Encode : String → List ℚ := fun s => if s = "Interested in a" then [1] else [2]

/-- A user whose context string is `"Interested in a"`. -/
def c3UserOld : User := ⟨1, "A", "a@example.com", none, some "a", none, none, []⟩

/-- The same user (same id) after its profile was edited: the context string
is now `"Interested in b"`. -/
def c3UserNew : User := ⟨1, "A", "a@example.com", none, some "b", none, none, []⟩

/-- C3 counterexample: `_get_user_embedding` stores no context and never
compares one.  After the first call caches the vector for id 1 (context
`"Interested in a"` ↦ `[1]`), a second call for the same id with the changed
context `"Interested in b"` returns the stale `[1]`, not the embedding `[2]`
of the new context. -/
theorem C3_cache_stale_counterexample :
    (get_user_embedding c3Encode [] c3UserOld).2 = [(1, [1])] ∧
    (get_user_embedding c3Encode [(1, [1])] c3UserNew).1 = [1] ∧
    generate_embedding c3Encode (build_user_context c3UserNew) = [2] ∧
    ([1] : List ℚ) ≠ [2] := by
  refine ⟨?_, ?_, ?_, by simp⟩
  · rfl
  · rfl
  · rfl

/-- C3 amended: the embedding cache is keyed by the user id alone.  Once any
call has populated the entry for an id, every later call for a user with that
id returns the first call's vector unchanged, regardless of whether the
context string has changed in the meantime; only a cache miss computes and
stores a fresh embedding of the current context. -/
theorem C3_cache_id_keyed (encode : String → List ℚ) (c : EmbeddingCache) (u u' : User)
    (h : u'.id = u.id) :
    (get_user_embedding encode (get_user_embedding encode c u).2 u').1 =
      (get_user_embedding encode c u).1 := by
  unfold get_user_embedding
  cases hl : cacheLookup c u.id with
  | some v =>
      have hl' : cacheLookup c u'.id = some v := by rw [h]; exact hl
      simp [hl, hl']
  | none =>
      have hl' : cacheLookup ((u.id, generate_embedding encode (build_user_context u)) :: c) u'.id
          = some (generate_embedding encode (build_user_context u)) := by
        rw [cacheLookup_cons, if_pos (beq_iff_eq.mpr h.symm)]
      simp [hl, hl']

/-- Witness for the amended C3: the stale-cache scenario itself. -/
theorem C3_cache_id_keyed_witness :
    (get_user_embedding c3Encode (get_user_embedding c3Encode [] c3UserOld).2 c3UserNew).1 =
      (get_user_embedding c3Encode [] c3UserOld).1 :=
  C3_cache_id_keyed c3Encode [] c3UserOld c3UserNew rfl

/-- C4 counterexample: with an empty user table the searcher id 1 resolves to
nothing, yet `_find_matches_sync` completes with the normal result `[]` (the
source merely logs a warning and returns the empty list) — no `NotFoundError`
escapes to the caller. -/
theorem C4_missing_searcher_counterexample :
    find_matches_sync (fun _ => [1]) [] [] 1 20 0.1 = ([], []) := rfl

/-- C4 amended: whenever the searcher id does not resolve to a stored
profile, the profile-to-pool request completes normally with the empty list
and an unchanged cache; no error is surfaced and no other result is
produced. -/
theorem C4_missing_searcher_returns_empty (encode : String → List ℚ) (c : EmbeddingCache)
    (db : List User) (uid : Int) (limit : Nat) (min_score : ℝ)
    (h : dbGet db uid = none) :
    find_matches_sync encode c db uid limit min_score = ([], c) := by
  unfold find_matches_sync
  rw [h]

/-- Witness for the amended C4 at a concrete input. -/
theorem C4_missing_searcher_returns_empty_witness :
    dbGet [] 1 = none ∧ find_matches_sync (fun _ => [2]) [] [] 1 20 0.1 = ([], []) :=
  ⟨rfl, C4_missing_searcher_returns_empty (fun _ => [2]) [] [] 1 20 0.1 rfl⟩

/-! ### The legacy compatibility layer (C10) -/

theorem score_candidates_mem {encode : String → List ℚ} {my_embedding : List ℚ}
    {my_skills : Finset String} {min_score : ℝ} :
    ∀ (cands : List User) (c : EmbeddingCache) (m : MatchScore),
      m ∈ (score_candidates encode my_embedding my_skills min_score c cands).1 →
      ∃ u ∈ cands, m.user_id = u.id := by
  intro cands
  induction cands with
  | nil =>
      intro c m hm
      simp only [score_candidates, List.not_mem_nil] at hm
  | cons candidate rest ih =>
      intro c m hm
      simp only [score_candidates] at hm
      by_cases hlt : (calculate_hybrid_score my_embedding my_skills
          (get_user_embedding encode c candidate).1
          (lowered_skill_set candidate.skills)).1 < min_score
      · rw [if_pos hlt] at hm
        obtain ⟨u, hu, hid⟩ := ih _ m hm
        exact ⟨u, List.mem_cons_of_mem _ hu, hid⟩
      · rw [if_neg hlt] at hm
        rcases List.mem_cons.mp hm with h | h
        · exact ⟨candidate, List.mem_cons_self _ _, by rw [h]⟩
        · obtain ⟨u, hu, hid⟩ := ih _ m h
          exact ⟨u, List.mem_cons_of_mem _ hu, hid⟩

theorem dbGet_of_mem {db : List User} {u : User} (hu : u ∈ db) :
    ∃ w, dbGet db u.id = some w ∧ w.id = u.id := by
  unfold dbGet
  cases hfind : db.find? (fun x => x.id == u.id) with
  | some w =>
      refine ⟨w, rfl, ?_⟩
      have := List.find?_some hfind
      simpa using this
  | none =>
      exfalso
      have := List.find?_eq_none.mp hfind u hu
      simp at this

theorem find_matches_sync_ids {encode : String → List ℚ} {c : EmbeddingCache}
    {db : List User} {uid : Int} {limit : Nat} {min_score : ℝ} {m : MatchScore}
    (hm : m ∈ (find_matches_sync encode c db uid limit min_score).1) :
    ∃ u ∈ db, m.user_id = u.id := by
  unfold find_matches_sync at hm
  cases hdb : dbGet db uid with
  | none => rw [hdb] at hm; simp at hm
  | some me =>
      rw [hdb] at hm
      simp only at hm
      have hm' := List.mem_of_mem_take hm
      rw [List.mem_insertionSort] at hm'
      obtain ⟨u, hu, hid⟩ := score_candidates_mem _ _ m hm'
      exact ⟨u, List.mem_of_mem_filter hu, hid⟩

theorem filterMap_resolves (db : List User) (l : List MatchScore)
    (h : ∀ m ∈ l, ∃ u ∈ db, m.user_id = u.id) :
    (l.filterMap (fun m => (dbGet db m.user_id).map (fun u => (u, m.total_score * 100)))).map
        (fun p => (p.1.id, p.2))
      = l.map (fun m => (m.user_id, m.total_score * 100)) := by
  induction l with
  | nil => rfl
  | cons m t ih =>
      obtain ⟨u, hu, hid⟩ := h m (List.mem_cons_self _ _)
      obtain ⟨w, hw, hwid⟩ := dbGet_of_mem hu
      have hw' : dbGet db m.user_id = some w := by rw [hid]; exact hw
      simp only [List.filterMap_cons, hw', Option.map_some', List.map_cons]
      rw [ih (fun m' hm' => h m' (List.mem_cons_of_mem _ hm'))]
      rw [hwid, ← hid]

/-- C10: the legacy `get_matches` path returns exactly the matches of the
hybrid engine's synchronous find-matches computation (with its default
`min_score = 0.1`), in the same order, each candidate paired with
`total_score * 100`; no match is dropped because every scored id resolves in
the same database, and the `MatchingService` wrapper delegates unchanged. -/
theorem C10_legacy_get_matches (encode : String → List ℚ) (c : EmbeddingCache)
    (db : List User) (uid : Int) (limit : Nat) :
    ((get_matches encode c db uid limit).1.map (fun p => (p.1.id, p.2))
      = (find_matches_sync encode c db uid limit 0.1).1.map
          (fun m => (m.user_id, m.total_score * 100))) ∧
    (get_matches encode c db uid limit).2 = (find_matches_sync encode c db uid limit 0.1).2 ∧
    matching_service_get_matches encode c db uid limit = get_matches encode c db uid limit := by
  refine ⟨?_, rfl, rfl⟩
  have hrepr : (get_matches encode c db uid limit).1
      = (find_matches_sync encode c db uid limit 0.1).1.filterMap
          (fun m => (dbGet db m.user_id).map (fun u => (u, m.total_score * 100))) := rfl
  rw [hrepr]
  exact filterMap_resolves db _ (fun m hm => find_matches_sync_ids hm)

/-! ### Ranking: sortedness, truncation, determinism (C2) -/

theorem find_matches_sync_sorted (encode : String → List ℚ) (c : EmbeddingCache)
    (db : List User) (uid : Int) (limit : Nat) (min_score : ℝ) :
    List.Sorted byTotalDesc (find_matches_sync encode c db uid limit min_score).1 := by
  unfold find_matches_sync
  cases dbGet db uid with
  | none => exact List.sorted_nil
  | some me =>
      exact List.Pairwise.sublist (List.take_sublist _ _)
        (List.sorted_insertionSort byTotalDesc _)

theorem find_matches_sync_length (encode : String → List ℚ) (c : EmbeddingCache)
    (db : List User) (uid : Int) (limit : Nat) (min_score : ℝ) :
    (find_matches_sync encode c db uid limit min_score).1.length ≤ limit := by
  unfold find_matches_sync
  cases dbGet db uid with
  | none => simp
  | some me => exact List.length_take_le _ _

theorem find_matches_for_project_sync_sorted (encode : String → List ℚ) (c : EmbeddingCache)
    (db : List User) (project : ProjectRequirements) (limit : Nat) (min_score : ℝ)
    (exclude : List Int) :
    List.Sorted byTotalDesc
      (find_matches_for_project_sync encode c db project limit min_score exclude).1 :=
  List.Pairwise.sublist (List.take_sublist _ _) (List.sorted_insertionSort byTotalDesc _)

theorem find_matches_for_project_sync_length (encode : String → List ℚ) (c : EmbeddingCache)
    (db : List User) (project : ProjectRequirements) (limit : Nat) (min_score : ℝ)
    (exclude : List Int) :
    (find_matches_for_project_sync encode c db project limit min_score exclude).1.length ≤
      limit :=
  List.length_take_le _ _

/-- A cache state is consistent with the database when every cached vector
for the id of a stored user is the embedding of that user's current
context.  The empty cache is vacuously consistent, and the engine only ever
inserts entries of this shape. -/
def CacheConsistent (encode : String → List ℚ) (db : List User) (c : EmbeddingCache) : Prop :=
  ∀ u ∈ db, ∀ v, cacheLookup c u.id = some v →
    v = generate_embedding encode (build_user_context u)

/-- The cache-free scoring loop: what `score_candidates` computes when every
cache access resolves to the candidate's own current context. -/
noncomputable def pure_scores (encode : String → List ℚ) (my_embedding : List ℚ)
    (my_skills : Finset String) (min_score : ℝ) : List User → List MatchScore
  | [] => []
  | candidate :: rest =>
      let candidate_embedding := generate_embedding encode (build_user_context candidate)
      let candidate_skills := lowered_skill_set candidate.skills
      let scores := calculate_hybrid_score my_embedding my_skills candidate_embedding
        candidate_skills
      let restRes := pure_scores encode my_embedding my_skills min_score rest
      if scores.1 < min_score then restRes
      else
        let matching := (my_skills ∩ candidate_skills).sort (· ≤ ·)
        let complementary := (candidate_skills \ my_skills).sort (· ≤ ·)
        { user_id := candidate.id
          user_name := candidate.name
          total_score := scores.1
          semantic_score := scores.2.1
          skill_score := scores.2.2
          matching_skills := matching
          complementary_skills := complementary
          explanation := generate_explanation candidate.name scores.1 scores.2.1 scores.2.2
            matching complementary } :: restRes

theorem get_user_embedding_consistent {encode : String → List ℚ} {db : List User}
    {c : EmbeddingCache} {u : User} (hu : u ∈ db) (hc : CacheConsistent encode db c)
    (hids : (db.map User.id).Nodup) :
    (get_user_embedding encode c u).1 = generate_embedding encode (build_user_context u) ∧
    CacheConsistent encode db (get_user_embedding encode c u).2 := by
  unfold get_user_embedding
  cases hl : cacheLookup c u.id with
  | some v =>
      simp only [hl]
      exact ⟨hc u hu v hl, hc⟩
  | none =>
      simp only [hl]
      refine ⟨trivial, ?_⟩
      intro u' hu' v hv
      rw [cacheLookup_cons] at hv
      by_cases hid : u.id = u'.id
      · rw [if_pos (beq_iff_eq.mpr hid)] at hv
        have huu : u' = u := List.inj_on_of_nodup_map hids hu' hu hid.symm
        rw [huu]
        exact (Option.some_inj.mp hv).symm
      · rw [if_neg (by simpa using hid)] at hv
        exact hc u' hu' v hv

theorem score_candidates_eq_pure {encode : String → List ℚ} {db : List User}
    (my_embedding : List ℚ) (my_skills : Finset String) (min_score : ℝ)
    (hids : (db.map User.id).Nodup) :
    ∀ (cands : List User) (c : EmbeddingCache), (∀ u ∈ cands, u ∈ db) →
      CacheConsistent encode db c →
      (score_candidates encode my_embedding my_skills min_score c cands).1
          = pure_scores encode my_embedding my_skills min_score cands ∧
      CacheConsistent encode db
        (score_candidates encode my_embedding my_skills min_score c cands).2 := by
  intro cands
  induction cands with
  | nil =>
      intro c _ hc
      exact ⟨rfl, hc⟩
  | cons candidate rest ih =>
      intro c hsub hc
      have hcand : candidate ∈ db := hsub _ (List.mem_cons_self _ _)
      obtain ⟨hemb, hc'⟩ := get_user_embedding_consistent hcand hc hids
      obtain ⟨ihEq, ihCons⟩ := ih (get_user_embedding encode c candidate).2
        (fun u hu => hsub u (List.mem_cons_of_mem _ hu)) hc'
      constructor
      · simp only [score_candidates, pure_scores, hemb, ihEq]
        split_ifs <;> simp [ihEq]
      · simp only [score_candidates]
        split_ifs <;> exact ihCons

theorem find_matches_sync_run {encode : String → List ℚ} {c : EmbeddingCache}
    {db : List User} {uid : Int} {limit : Nat} {min_score : ℝ}
    (hids : (db.map User.id).Nodup) (hc : CacheConsistent encode db c) :
    (find_matches_sync encode c db uid limit min_score).1 =
      (match dbGet db uid with
       | none => []
       | some me =>
          ((pure_scores encode (generate_embedding encode (build_user_context me))
              (lowered_skill_set me.skills) min_score
              (db.filter (fun u => u.id ≠ uid))).insertionSort byTotalDesc).take limit) ∧
    CacheConsistent encode db (find_matches_sync encode c db uid limit min_score).2 := by
  unfold find_matches_sync
  cases hdb : dbGet db uid with
  | none => exact ⟨rfl, hc⟩
  | some me =>
      have hme : me ∈ db := List.mem_of_find?_eq_some hdb
      obtain ⟨hemb, hc'⟩ := get_user_embedding_consistent hme hc hids
      obtain ⟨hEq, hCons⟩ := score_candidates_eq_pure
        (get_user_embedding encode c me).1 (lowered_skill_set me.skills) min_score hids
        (db.filter (fun u => u.id ≠ uid)) (get_user_embedding encode c me).2
        (fun u hu => List.mem_of_mem_filter hu) hc'
      constructor
      · dsimp only
        rw [hEq, hemb]
      · dsimp only
        exact hCons

theorem find_matches_for_project_run {encode : String → List ℚ} {c : EmbeddingCache}
    {db : List User} {project : ProjectRequirements} {limit : Nat} {min_score : ℝ}
    {exclude : List Int}
    (hids : (db.map User.id).Nodup) (hc : CacheConsistent encode db c) :
    (find_matches_for_project_sync encode c db project limit min_score exclude).1 =
      ((pure_scores encode
          (generate_embedding encode
            (if project.preferred_interests ≠ [] then
              project.description ++ " Looking for: " ++
                String.intercalate ", " project.preferred_interests
            else project.description))
          ((project.required_skills.map pyLower).toFinset) min_score
          (if exclude ≠ [] then db.filter (fun u => !exclude.contains u.id)
           else db)).insertionSort byTotalDesc).take limit ∧
    CacheConsistent encode db
      (find_matches_for_project_sync encode c db project limit min_score exclude).2 := by
  have hsub : ∀ u ∈ (if exclude ≠ [] then db.filter (fun u => !exclude.contains u.id)
      else db), u ∈ db := by
    intro u hu
    by_cases hex : exclude ≠ []
    · rw [if_pos hex] at hu
      exact List.mem_of_mem_filter hu
    · rwa [if_neg hex] at hu
  obtain ⟨hEq, hCons⟩ := score_candidates_eq_pure
    (generate_embedding encode
      (if project.preferred_interests ≠ [] then
        project.description ++ " Looking for: " ++
          String.intercalate ", " project.preferred_interests
      else project.description))
    ((project.required_skills.map pyLower).toFinset) min_score hids
    (if exclude ≠ [] then db.filter (fun u => !exclude.contains u.id) else db) c hsub hc
  unfold find_matches_for_project_sync
  constructor
  · dsimp only
    rw [hEq]
  · dsimp only
    exact hCons

/-- C2 amended: for every matching request in either mode, the returned list
is sorted by `total_score` descending and truncated to the caller's `limit`;
ties in `total_score` keep the candidate pool's iteration order (Python's
stable sort), not ascending candidate id.  The ranking is deterministic:
with distinct user ids and a database-consistent cache, re-running the same
request — including against the embedding cache left behind by the first
run — returns the identical ordered list. -/
theorem C2_ranking_sorted_truncated_deterministic
    (encode : String → List ℚ) (c : EmbeddingCache) (db : List User) (uid : Int)
    (project : ProjectRequirements) (exclude : List Int) (limit : Nat) (min_score : ℝ)
    (hids : (db.map User.id).Nodup) (hc : CacheConsistent encode db c) :
    List.Sorted byTotalDesc (find_matches_sync encode c db uid limit min_score).1 ∧
    (find_matches_sync encode c db uid limit min_score).1.length ≤ limit ∧
    List.Sorted byTotalDesc
      (find_matches_for_project_sync encode c db project limit min_score exclude).1 ∧
    (find_matches_for_project_sync encode c db project limit min_score exclude).1.length
      ≤ limit ∧
    (find_matches_sync encode (find_matches_sync encode c db uid limit min_score).2
        db uid limit min_score).1
      = (find_matches_sync encode c db uid limit min_score).1 ∧
    (find_matches_for_project_sync encode
        (find_matches_for_project_sync encode c db project limit min_score exclude).2
        db project limit min_score exclude).1
      = (find_matches_for_project_sync encode c db project limit min_score exclude).1 := by
  obtain ⟨hrun1, hcons1⟩ := @find_matches_sync_run encode c db uid limit min_score hids hc
  obtain ⟨hrun2, _⟩ := @find_matches_sync_run encode
    (find_matches_sync encode c db uid limit min_score).2 db uid limit min_score hids hcons1
  obtain ⟨prun1, pcons1⟩ :=
    @find_matches_for_project_run encode c db project limit min_score exclude hids hc
  obtain ⟨prun2, _⟩ := @find_matches_for_project_run encode
    (find_matches_for_project_sync encode c db project limit min_score exclude).2
    db project limit min_score exclude hids pcons1
  exact ⟨find_matches_sync_sorted encode c db uid limit min_score,
    find_matches_sync_length encode c db uid limit min_score,
    find_matches_for_project_sync_sorted encode c db project limit min_score exclude,
    find_matches_for_project_sync_length encode c db project limit min_score exclude,
    by rw [hrun1, hrun2], by rw [prun1, prun2]⟩

/-- Witness for the amended C2 at a concrete request: a one-user pool, an
empty (vacuously consistent) cache, a fixed-vector embedding double. -/
theorem C2_ranking_sorted_truncated_deterministic_witness :
    ((["u"].map (fun n => User.mk 1 n "u@example.com" none none none none ["python"])).map
        User.id).Nodup ∧
    (List.Sorted byTotalDesc
      (find_matches_sync (fun _ => [1]) []
        (["u"].map (fun n => User.mk 1 n "u@example.com" none none none none ["python"]))
        1 5 0.1).1 ∧ True) := by
  have hids : ((["u"].map
      (fun n => User.mk 1 n "u@example.com" none none none none ["python"])).map
        User.id).Nodup := by simp
  have hc : CacheConsistent (fun _ => [1])
      (["u"].map (fun n => User.mk 1 n "u@example.com" none none none none ["python"]))
      [] := by
    intro u _ v hv
    simp [cacheLookup] at hv
  refine ⟨hids, ?_, trivial⟩
  exact (C2_ranking_sorted_truncated_deterministic (fun _ => [1]) []
    (["u"].map (fun n => User.mk 1 n "u@example.com" none none none none ["python"]))
    1 ⟨"d", [], [], none⟩ [] 5 0.1 hids hc).1

theorem pyRound4_of_intMul (n : ℤ) {x : ℝ} (h : x * 10000 = (n:ℝ)) : pyRound4 x = x := by
  unfold pyRound4
  rw [h, round_intCast, ← h]
  exact mul_div_cancel_right₀ x (by norm_num)

/-- Fixed-vector embedding double for the C2 counterexample (spec §9 blesses
test doubles returning fixed vectors). -/
def c2enc : String → List ℚ := fun _ => [0]

/-- The searcher of the C2 counterexample. -/
def c2me : User := ⟨0, "Me", "me@example.com", none, none, none, none, ["python"]⟩

/-- Candidate with the larger id, iterated first by the pool query. -/
def c2u2 : User := ⟨2, "B", "b@example.com", none, none, none, none, ["python"]⟩

/-- Candidate with the smaller id, iterated second by the pool query. -/
def c2u1 : User := ⟨1, "A", "a@example.com", none, none, none, none, ["python"]⟩

/-- The user table in iteration order: the tied candidates appear as id 2
before id 1. -/
def c2db : List User := [c2me, c2u2, c2u1]

/-- C2 counterexample: over the pool `[id 2, id 1]` of two candidates with
identical profiles (hence tied total scores 0.3), the profile-to-pool request
returns them in pool order `[2, 1]`: the code's stable sort keys only on
`total_score` and never tie-breaks by ascending candidate id, which would
require `[1, 2]`. -/
theorem C2_tie_break_counterexample :
    ((find_matches_sync c2enc [] c2db 0 20 0.1).1.map
        (fun m => (m.user_id, m.total_score))) = [(2, (0.3:ℝ)), (1, (0.3:ℝ))] ∧
    ((find_matches_sync c2enc [] c2db 0 20 0.1).1.map (fun m => m.user_id)) ≠ [1, 2] := by
  have hno : ¬((0.3:ℝ) < 0.1) := by norm_num
  have hzq : |(0:ℚ)| ≤ 1 / 100000000 := by rw [abs_zero]; norm_num
  have hzero : allCloseZero [0] = true := by simp [allCloseZero, hzq]
  have hsem : calculate_semantic_similarity [0] [0] = 0 := by
    unfold calculate_semantic_similarity
    rw [hzero]
    simp
  have hS : lowered_skill_set ["python"] = {"python"} := by decide
  have hnS : normalize_skill_set {"python"} = {"python"} := by decide
  have hjac : calculate_jaccard_similarity {"python"} {"python"} = 1 := by
    rw [jaccard_eq_of_ne {"python"} (by decide) (by rw [hnS]; decide), hnS]
    simp
  have hhyb : calculate_hybrid_score [0] {"python"} [0] {"python"} = ((0.3:ℝ), 0, 1) := by
    unfold calculate_hybrid_score
    rw [hsem, hjac]
    have e1 : SEMANTIC_WEIGHT * (0:ℝ) + SKILL_WEIGHT * (((1:ℚ)) : ℝ) = (0.3:ℝ) := by
      norm_num [SEMANTIC_WEIGHT, SKILL_WEIGHT]
    dsimp only
    rw [e1, Rat.cast_one, pyRound4_of_intMul 3000 (by norm_num),
      pyRound4_of_intMul 0 (by norm_num), pyRound4_of_intMul 10000 (by norm_num)]
  have hids : (c2db.map User.id).Nodup := by decide
  have hcc : CacheConsistent c2enc c2db [] := by
    intro u _ v hv
    simp [cacheLookup] at hv
  have hge2 : generate_embedding c2enc (build_user_context c2u2) = [0] := rfl
  have hge1 : generate_embedding c2enc (build_user_context c2u1) = [0] := rfl
  have hsk2 : lowered_skill_set c2u2.skills = {"python"} := by
    rw [show c2u2.skills = ["python"] from rfl]; exact hS
  have hsk1 : lowered_skill_set c2u1.skills = {"python"} := by
    rw [show c2u1.skills = ["python"] from rfl]; exact hS
  have hname2 : c2u2.name = "B" := rfl
  have hname1 : c2u1.name = "A" := rfl
  have hid2 : c2u2.id = 2 := rfl
  have hid1 : c2u1.id = 1 := rfl
  have hpure : pure_scores c2enc [0] {"python"} 0.1 [c2u2, c2u1]
      = [{ user_id := 2, user_name := "B", total_score := (0.3:ℝ), semantic_score := 0,
            skill_score := 1,
            matching_skills := (({"python"} : Finset String) ∩ {"python"}).sort (· ≤ ·),
            complementary_skills := (({"python"} : Finset String) \ {"python"}).sort (· ≤ ·),
            explanation := generate_explanation "B" (0.3:ℝ) 0 1
              ((({"python"} : Finset String) ∩ {"python"}).sort (· ≤ ·))
              ((({"python"} : Finset String) \ {"python"}).sort (· ≤ ·)) },
         { user_id := 1, user_name := "A", total_score := (0.3:ℝ), semantic_score := 0,
            skill_score := 1,
            matching_skills := (({"python"} : Finset String) ∩ {"python"}).sort (· ≤ ·),
            complementary_skills := (({"python"} : Finset String) \ {"python"}).sort (· ≤ ·),
            explanation := generate_explanation "A" (0.3:ℝ) 0 1
              ((({"python"} : Finset String) ∩ {"python"}).sort (· ≤ ·))
              ((({"python"} : Finset String) \ {"python"}).sort (· ≤ ·)) }] := by
    simp only [pure_scores, hge2, hge1, hsk2, hsk1, hhyb, hname2, hname1, hid2, hid1,
      if_neg hno]
  have hmys : lowered_skill_set c2me.skills = {"python"} := by
    rw [show c2me.skills = ["python"] from rfl]; exact hS
  have hmain : (find_matches_sync c2enc [] c2db 0 20 0.1).1
      = pure_scores c2enc [0] {"python"} 0.1 [c2u2, c2u1] := by
    obtain ⟨hrun, -⟩ := @find_matches_sync_run c2enc [] c2db 0 20 0.1 hids hcc
    rw [hrun]
    simp only [show dbGet c2db 0 = some c2me from rfl]
    rw [show generate_embedding c2enc (build_user_context c2me) = [0] from rfl, hmys,
      show c2db.filter (fun u => u.id ≠ 0) = [c2u2, c2u1] from rfl, hpure]
    simp only [List.insertionSort, List.orderedInsert]
    split_ifs with h
    · exact List.take_of_length_le (by simp)
    · exfalso
      exact h (le_refl (0.3:ℝ))
  rw [hmain, hpure]
  constructor
  · simp
  · simp

end Elevare
